import Mathlib

/-!
Verification of the StockHighlights analytics core.

Shallow embedding of the analytics pipeline of `stock_tracker.py`:
the indicator engine (`calculate_rsi`, momentum, day change), the
classifier (analyst pick, risk), the per-symbol analytics builder
(`get_stock_data`, whose loop body is `mkRecord`), the ranker
(`get_top_3_picks`), and a cache model for the memoization layer.

Modelling conventions:
* Prices and indicator arithmetic are embedded over `ℚ` (exact real
  arithmetic in place of IEEE doubles).  The special float values that
  the RSI division can produce (`NaN` from `0/0`, `±∞` from division by
  zero) are modelled explicitly by the `PFloat` type, with the IEEE
  comparison rule that every comparison against `NaN` is false.
* A pandas `Series` of floats is a `List ℚ`; a series that can hold
  `NaN` entries is a `List (Option ℚ)` (`none` = `NaN`).
* A daily OHLC bar keeps only the two columns the analytics reads
  (`Open`, `Close`); date/high/low/volume are never consumed.
* The external market-data collaborator (`yfinance`) is an oracle
  `FetchRaw`; `none` models a raised exception, `some h` the fetched
  (possibly empty) history.
* A Python `dict` keyed by symbol is an association list updated by
  `dinsert` (in-place overwrite, insertion order preserved) and read by
  `dlookup`.
* Python code that would raise `IndexError` (the `iloc[-1]` accesses on
  an empty frame) is modelled with `Option`: `mkRecord` returns `none`
  exactly when a latest-bar access would be out of range, and
  `get_stock_data` returns `none` if any loop iteration would raise.
* CPython object identity matters in the ranker: the backfill test
  `stock not in top_picks` compares the record dicts with the
  identity-then-equality rule, and equality of two distinct records
  reaches the `Data` DataFrames (distinct objects) once the six scalar
  entries agree, which raises `ValueError`.  Records are therefore
  tagged with their position (identity), and `get_top_3_picks` returns
  `none` when that error is raised.
-/

/-- One daily bar; only the `Open` and `Close` columns are read by the
analytics code. -/
structure Bar where
  Open : ℚ
  Close : ℚ
deriving DecidableEq, Repr

/-- Float values reachable in the RSI pipeline: a finite value, `NaN`
(`none`-style poison from `0/0` and from `diff`'s leading gap), and the
two infinities produced by division by zero. -/
inductive PFloat where
  | nan : PFloat
  | inf : PFloat
  | ninf : PFloat
  | val (q : ℚ) : PFloat
deriving DecidableEq, Repr

/-- IEEE `<` on the modelled float values: any comparison involving
`NaN` is false. -/
def PFloat.lt : PFloat → PFloat → Bool
  | .nan, _ => false
  | _, .nan => false
  | .ninf, .ninf => false
  | .ninf, _ => true
  | _, .ninf => false
  | .inf, _ => false
  | .val _, .inf => true
  | .val a, .val b => decide (a < b)

/-- Elementwise float division `avg_gain / avg_loss` (line 103):
`NaN` operands propagate, `x/0` is `±∞` by the sign of `x`, `0/0` is
`NaN`, and otherwise the quotient is finite. -/
def divOp : Option ℚ → Option ℚ → PFloat
  | some a, some b =>
      if b = 0 then
        if a = 0 then .nan else if 0 < a then .inf else .ninf
      else .val (a / b)
  | _, _ => .nan

/-- Line 104, `100 - (100 / (1 + rs))`, on a modelled float `rs`:
`1 + ∞ = ∞` gives `100 - 0 = 100`; `1 + (-∞) = -∞` gives
`100 - (-0) = 100`; `rs = -1` gives `100 - 100/0 = -∞`. -/
def rsiOfRs : PFloat → PFloat
  | .nan => .nan
  | .inf => .val 100
  | .ninf => .val 100
  | .val q => if 1 + q = 0 then .ninf else .val (100 - 100 / (1 + q))

/-- One step of pandas `ewm(span, adjust=False).mean()`: state is the
last mean (`none` before the first valid input); a `NaN` input leaves
the state unchanged (the output forward-fills), a valid input `x` sets
the mean to `(1-α)·y + α·x` (or `x` if no state yet). -/
def ewmStep (a : ℚ) : Option ℚ → Option ℚ → Option ℚ
  | none, none => none
  | none, some x => some x
  | some y, none => some y
  | some y, some x => some ((1 - a) * y + a * x)

/-- The running `ewm` outputs: one output per input, each equal to the
state after consuming that input. -/
def ewmGo (a : ℚ) : Option ℚ → List (Option ℚ) → List (Option ℚ)
  | _, [] => []
  | st, x :: xs => ewmStep a st x :: ewmGo a (ewmStep a st x) xs

/-- The pandas `ewm(span, adjust=False).mean()` pass with `α` precomputed. -/
def ewm (a : ℚ) (xs : List (Option ℚ)) : List (Option ℚ) :=
  ewmGo a none xs

/-- The consecutive close-to-close differences `c₁-c₀, c₂-c₁, …`. -/
def diffs : List ℚ → List ℚ
  | [] => []
  | [_] => []
  | a :: b :: rest => (b - a) :: diffs (b :: rest)

/-- pandas `Series.diff()`: same length as the input, `NaN` in the
first slot, then the consecutive differences. -/
def diff : List ℚ → List (Option ℚ)
  | [] => []
  | c :: cs => none :: (diffs (c :: cs)).map some

/-- Lines 95-104, `calculate_rsi`.  The guard `data.empty or "Close"
not in data.columns` reduces to emptiness here because a modelled `Bar`
always has its `Close` column.  `gain = delta.clip(lower=0)` and
`loss = -delta.clip(upper=0)` become `max d 0` and `max (-d) 0` with
`NaN` preserved; the `ewm` span smoothing uses `α = 2/(periods+1)`. -/
def calculate_rsi (data : List Bar) (periods : ℕ := 14) : List PFloat :=
  if data = [] then []
  else
    let a : ℚ := 2 / (periods + 1)
    let delta := diff (data.map Bar.Close)
    let gain := delta.map (Option.map fun d => max d 0)
    let loss := delta.map (Option.map fun d => max (-d) 0)
    let avg_gain := ewm a gain
    let avg_loss := ewm a loss
    (List.zipWith divOp avg_gain avg_loss).map rsiOfRs

/-- The momentum expression of line 175 on the close column:
`(data["Close"].iloc[-1] - data["Close"].iloc[-5]) / 5 if len(data) >= 5
else 0`.  `iloc[-1]` is index `len-1` and `iloc[-5]` index `len-5`. -/
def momentum (closes : List ℚ) : ℚ :=
  if 5 ≤ closes.length then
    (closes.getD (closes.length - 1) 0 - closes.getD (closes.length - 5) 0) / 5
  else 0

/-- The RSI scalar of line 176:
`calculate_rsi(data).iloc[-1] if not calculate_rsi(data).empty else 0`. -/
def rsiVal (data : List Bar) : PFloat :=
  (calculate_rsi data).getLast?.getD (PFloat.val 0)

/-- The analyst classification of line 177 on a modelled float RSI:
`"Buy" if rsi < 50 else "Hold" if rsi < 70 else "Sell"`. -/
def analystOf (rsi : PFloat) : String :=
  if rsi.lt (.val 50) then "Buy" else if rsi.lt (.val 70) then "Hold" else "Sell"

/-- One per-symbol analytics record (the dict built at lines 179-182). -/
structure StockRec where
  Price : ℚ
  Change : ℚ
  Momentum : ℚ
  RSI : PFloat
  Analyst : String
  Risk : String
  Data : List Bar
deriving DecidableEq, Repr

/-- The loop body of `get_stock_data` (lines 173-182) for one fetched
series: `none` models the `IndexError` the `iloc[-1]` accesses would
raise on an empty frame; otherwise the full record is assembled. -/
def mkRecord (data : List Bar) : Option StockRec :=
  match data.getLast? with
  | none => none
  | some lastBar =>
      let current_price := lastBar.Close
      let day_change := ((current_price - lastBar.Open) / lastBar.Open) * 100
      some
        { Price := current_price
          Change := day_change
          Momentum := momentum (data.map Bar.Close)
          RSI := rsiVal data
          Analyst := analystOf (rsiVal data)
          Risk := if 5 < |day_change| then "High" else "Medium"
          Data := data }

/-- The external market-data collaborator: `none` models an exception
raised by the provider, `some h` the fetched (possibly empty) bar
history for a `(ticker, period)` request. -/
def FetchRaw : Type := String → String → Option (List Bar)

/-- Lines 82-91, `fetch_data`: an exception is caught and converted to
`None`; an empty history is also converted to `None`
(`data if not data.empty else None`). -/
def fetch_data (raw : FetchRaw) (ticker : String) (period : String := "1mo") :
    Option (List Bar) :=
  match raw ticker period with
  | none => none
  | some data => if data.isEmpty then none else some data

/-- Lookup in the symbol-keyed dict. -/
def dlookup (k : String) : List (String × StockRec) → Option StockRec
  | [] => none
  | (k', v) :: rest => if k' = k then some v else dlookup k rest

/-- Dict assignment `stock_data[symbol] = …`: overwrite in place if the
key is present, else append. -/
def dinsert (k : String) (v : StockRec) : List (String × StockRec) →
    List (String × StockRec)
  | [] => [(k, v)]
  | (k', v') :: rest =>
      if k' = k then (k, v) :: rest else (k', v') :: dinsert k v rest

/-- The symbol loop of `get_stock_data` (lines 169-183) with an explicit
accumulator: a failed or empty fetch skips the symbol; a successful
fetch stores the record (`none` overall if building it would raise). -/
def get_stock_data_go (raw : FetchRaw) (period : String) :
    List String → List (String × StockRec) → Option (List (String × StockRec))
  | [], acc => some acc
  | sym :: rest, acc =>
      match fetch_data raw sym period with
      | none => get_stock_data_go raw period rest acc
      | some data =>
          match mkRecord data with
          | none => none
          | some r => get_stock_data_go raw period rest (dinsert sym r acc)

/-- Lines 167-183, `get_stock_data`. -/
def get_stock_data (raw : FetchRaw) (stock_list : List String)
    (period : String := "1mo") : Option (List (String × StockRec)) :=
  get_stock_data_go raw period stock_list []

/-- The descending sort key of line 193: Python's
`sorted(key=lambda x: (x["Change"], x["Momentum"]), reverse=True)`
places `a` no later than `b` when `a`'s key tuple is lexicographically
at least `b`'s. -/
def keyGe (a b : StockRec) : Prop :=
  b.Change < a.Change ∨ (b.Change = a.Change ∧ b.Momentum ≤ a.Momentum)

instance : DecidableRel keyGe := fun a b => by
  unfold keyGe; infer_instance

/-- The sort key lifted to position-tagged records (the tag models
CPython object identity: the dict values of distinct symbols are
pairwise distinct objects, as are the DataFrames they hold under
`Data`). -/
def keyGeT (a b : ℕ × StockRec) : Prop := keyGe a.2 b.2

instance : DecidableRel keyGeT := fun a b => by
  unfold keyGeT; infer_instance

/-- Python float `==` on the modelled values: `NaN` is unequal to
everything (each record holds its own float object, so the
interpreter's identity shortcut never applies across two records'
cells). -/
def pyEqF : PFloat → PFloat → Bool
  | .nan, _ => false
  | _, .nan => false
  | .inf, .inf => true
  | .ninf, .ninf => true
  | .val a, .val b => decide (a = b)
  | _, _ => false

/-- Value comparison of the six scalar entries of two record dicts, in
dict insertion order (Price, Change, Momentum, RSI, Analyst, Risk);
none of these comparisons can raise. -/
def scalarEq (r1 r2 : StockRec) : Bool :=
  decide (r1.Price = r2.Price) && decide (r1.Change = r2.Change) &&
    decide (r1.Momentum = r2.Momentum) && pyEqF r1.RSI r2.RSI &&
    decide (r1.Analyst = r2.Analyst) && decide (r1.Risk = r2.Risk)

/-- CPython's `stock == e` on two record dicts, with `none` modelling a
raised `ValueError`: identical objects (same tag) are equal by the
identity shortcut without any field comparison; distinct objects
compare the six scalars first and, only when those all agree, reach the
two `Data` DataFrames — distinct objects in this program — whose
`==`/truth test raises (`bool` of a DataFrame is ambiguous, and
differently-shaped frames raise already at `==`). -/
def pyRecEq (s e : ℕ × StockRec) : Option Bool :=
  if s.1 = e.1 then some true
  else if scalarEq s.2 e.2 then none
  else some false

/-- Python's `stock in top_picks`: test the elements left to right with
the identity-then-equality rule, propagating a raised error. -/
def pyContains (s : ℕ × StockRec) : List (ℕ × StockRec) → Option Bool
  | [] => some false
  | e :: rest =>
      match pyRecEq s e with
      | none => none
      | some true => some true
      | some false => pyContains s rest

/-- The backfill comprehension of line 196, left to right: `and`
short-circuits, so the raising membership test runs only for
positive-change records, a kept record is one not already picked, and
an error anywhere aborts the whole comprehension (the `[:3-len]` slice
happens only after it completes). -/
def backfill (tp : List (ℕ × StockRec)) :
    List (ℕ × StockRec) → Option (List (ℕ × StockRec))
  | [] => some []
  | s :: rest =>
      if 0 < s.2.Change then
        match pyContains s tp with
        | none => none
        | some b =>
            match backfill tp rest with
            | none => none
            | some l => some (if b then l else s :: l)
      else backfill tp rest

/-- Lines 191-198, `get_top_3_picks`, on the dict's value list: a
stable descending sort by `(Change, Momentum)`, the primary tier
`Change > 0 and Momentum > 0.005` truncated to 3, then backfill by
`Change > 0 and stock not in top_picks` up to 3, and a final `[:3]`.
Each input record is tagged with its position to model object
identity, and the result is `none` when the backfill membership test
raises `ValueError` — which it does when it compares two distinct
records that agree on all six scalar fields, because the comparison
then reaches their `Data` DataFrames. -/
def get_top_3_picks (stock_data_list : List StockRec) :
    Option (List StockRec) :=
  let sorted_data := List.insertionSort keyGeT stock_data_list.enum
  let top_picks :=
    (sorted_data.filter fun s =>
      decide (0 < s.2.Change ∧ (5 : ℚ) / 1000 < s.2.Momentum)).take 3
  if top_picks.length < 3 then
    match backfill top_picks sorted_data with
    | none => none
    | some additional =>
        some
          (((top_picks ++ additional.take (3 - top_picks.length)).take 3).map
            Prod.snd)
  else
    some ((top_picks.take 3).map Prod.snd)

/-- Modelled from the spec: the Result Cache (§4.5).  The concrete
memoization layer is Streamlit's `@st.cache_data` / `st.cache_data.clear()`
(framework code outside this repository), reframed per the spec as an
explicit cache object: entries keyed by the exact `(symbol list, period)`
pair, plus an external-fetch invocation counter (one fetch per listed
symbol on every computed — non-memoized — call). -/
structure CacheState where
  entries : List ((List String × String) × List (String × StockRec))
  fetchCount : ℕ
deriving DecidableEq, Repr

/-- Lookup of an exact key in the cache. -/
def cacheFind (key : List String × String) :
    List ((List String × String) × List (String × StockRec)) →
    Option (List (String × StockRec))
  | [] => none
  | (k, v) :: rest => if k = key then some v else cacheFind key rest

/-- Modelled from the spec: `GetOrCompute` — return the memoized mapping
on a hit; on a miss run `get_stock_data` (one external fetch per symbol)
and store the result under the key. -/
def getOrCompute (raw : FetchRaw) (st : CacheState)
    (key : List String × String) :
    CacheState × List (String × StockRec) :=
  match cacheFind key st.entries with
  | some v => (st, v)
  | none =>
      let v := (get_stock_data raw key.1 key.2).getD []
      (⟨(key, v) :: st.entries, st.fetchCount + key.1.length⟩, v)

/-- Modelled from the spec: `Invalidate()` — `st.cache_data.clear()`
(line 212) empties every entry; the fetch counter is instrumentation
and survives. -/
def invalidate (st : CacheState) : CacheState :=
  { entries := [], fetchCount := st.fetchCount }

/-! Helper lemmas. -/

/-- Nonnegativity predicate on a possibly-`NaN` float cell. -/
def NNo (o : Option ℚ) : Prop := ∀ y : ℚ, o = some y → 0 ≤ y

lemma NNo_none : NNo none := by intro y h; cases h

lemma NNo_some {y : ℚ} (h : 0 ≤ y) : NNo (some y) := by
  intro z hz; cases hz; exact h

lemma ewmStep_NN {a : ℚ} (h0 : 0 ≤ a) (h1 : a ≤ 1) {st x : Option ℚ}
    (hst : NNo st) (hx : NNo x) : NNo (ewmStep a st x) := by
  cases st with
  | none =>
    cases x with
    | none => exact NNo_none
    | some v => exact hx
  | some y =>
    cases x with
    | none => exact hst
    | some v =>
      refine NNo_some (add_nonneg (mul_nonneg ?_ (hst y rfl)) ?_)
      · linarith
      · exact mul_nonneg h0 (hx v rfl)

lemma ewmGo_NN {a : ℚ} (h0 : 0 ≤ a) (h1 : a ≤ 1) :
    ∀ (xs : List (Option ℚ)) (st : Option ℚ), NNo st → (∀ o ∈ xs, NNo o) →
      ∀ o ∈ ewmGo a st xs, NNo o := by
  intro xs
  induction xs with
  | nil => intro st _ _ o ho; cases ho
  | cons x rest ih =>
    intro st hst hxs o ho
    have hx : NNo x := hxs x (by simp)
    have hst' : NNo (ewmStep a st x) := ewmStep_NN h0 h1 hst hx
    rcases (List.mem_cons).1 ho with h | h
    · exact h ▸ hst'
    · exact ih _ hst' (fun o' ho' => hxs o' (by simp [ho'])) o h

lemma ewmGo_length (a : ℚ) :
    ∀ (xs : List (Option ℚ)) (st : Option ℚ), (ewmGo a st xs).length = xs.length := by
  intro xs
  induction xs with
  | nil => intro st; rfl
  | cons x rest ih => intro st; simp [ewmGo, ih]

lemma ewmGo_getLastD (a : ℚ) :
    ∀ (xs : List (Option ℚ)) (st : Option ℚ),
      (ewmGo a st xs).getLastD st = xs.foldl (ewmStep a) st := by
  intro xs
  induction xs with
  | nil => intro st; rfl
  | cons x rest ih =>
    intro st
    simp only [ewmGo, List.foldl_cons, List.getLastD_cons]
    exact ih (ewmStep a st x)

lemma foldl_ewm_pos {a : ℚ} (h0 : 0 < a) (h1 : a < 1) :
    ∀ (xs : List (Option ℚ)) (st : Option ℚ) (y : ℚ), st = some y → 0 < y →
      (∀ o ∈ xs, NNo o) →
      ∃ g : ℚ, xs.foldl (ewmStep a) st = some g ∧ 0 < g := by
  intro xs
  induction xs with
  | nil => intro st y hst hy _; exact ⟨y, by simp [hst], hy⟩
  | cons x rest ih =>
    intro st y hst hy hxs
    subst hst
    cases x with
    | none =>
      exact ih (some y) y rfl hy (fun o ho => hxs o (by simp [ho]))
    | some v =>
      have hv : 0 ≤ v := hxs (some v) (by simp) v rfl
      have hpos : 0 < (1 - a) * y + a * v := by nlinarith
      exact ih _ _ rfl hpos (fun o ho => hxs o (by simp [ho]))

lemma foldl_ewm_pos_of_mem {a : ℚ} (h0 : 0 < a) (h1 : a < 1) :
    ∀ (xs : List (Option ℚ)) (st : Option ℚ), NNo st → (∀ o ∈ xs, NNo o) →
      (∃ o ∈ xs, ∃ v : ℚ, o = some v ∧ 0 < v) →
      ∃ g : ℚ, xs.foldl (ewmStep a) st = some g ∧ 0 < g := by
  intro xs
  induction xs with
  | nil => intro st _ _ hw; obtain ⟨o, ho, _⟩ := hw; cases ho
  | cons x rest ih =>
    intro st hst hxs hw
    obtain ⟨o, ho, v, hov, hv⟩ := hw
    rcases (List.mem_cons).1 ho with h | h
    · subst h
      subst hov
      have hstep : ∃ z : ℚ, ewmStep a st (some v) = some z ∧ 0 < z := by
        cases st with
        | none => exact ⟨v, rfl, hv⟩
        | some y =>
          have hy : 0 ≤ y := hst y rfl
          exact ⟨(1 - a) * y + a * v, rfl, by nlinarith⟩
      obtain ⟨z, hz, hzpos⟩ := hstep
      simp only [List.foldl_cons, hz]
      exact foldl_ewm_pos h0 h1 rest (some z) z rfl hzpos
        (fun o' ho' => hxs o' (by simp [ho']))
    · have hst' : NNo (ewmStep a st x) :=
        ewmStep_NN (le_of_lt h0) (le_of_lt h1) hst (hxs x (by simp))
      simp only [List.foldl_cons]
      exact ih _ hst' (fun o' ho' => hxs o' (by simp [ho']))
        ⟨o, h, v, hov, hv⟩

lemma foldl_ewm_zero {a : ℚ} :
    ∀ (xs : List (Option ℚ)) (st : Option ℚ), (∀ o ∈ xs, o = some 0) →
      (st = none ∨ st = some 0) → xs ≠ [] →
      xs.foldl (ewmStep a) st = some 0 := by
  intro xs
  induction xs with
  | nil => intro st _ _ hne; exact absurd rfl hne
  | cons x rest ih =>
    intro st hxs hst _
    have hx : x = some 0 := hxs x (by simp)
    subst hx
    have hstep : ewmStep a st (some 0) = some 0 := by
      rcases hst with h | h <;> subst h
      · rfl
      · simp [ewmStep]
    simp only [List.foldl_cons, hstep]
    cases rest with
    | nil => rfl
    | cons z zs =>
      exact ih st (fun o ho => hxs o (by simp [ho])) hst (by simp) ▸
        ih _ (fun o ho => hxs o (by simp [ho])) (Or.inr rfl) (by simp)

lemma exists_of_mem_zipWith {α β γ : Type*} {f : α → β → γ} :
    ∀ {as : List α} {bs : List β} {c : γ}, c ∈ List.zipWith f as bs →
      ∃ x ∈ as, ∃ y ∈ bs, c = f x y := by
  intro as
  induction as with
  | nil => intro bs c h; simp at h
  | cons x xs ih =>
    intro bs c h
    cases bs with
    | nil => simp at h
    | cons y ys =>
      rcases (List.mem_cons).1 h with h' | h'
      · exact ⟨x, by simp, y, by simp, h'⟩
      · obtain ⟨u, hu, v, hv, rfl⟩ := ih h'
        exact ⟨u, by simp [hu], v, by simp [hv], rfl⟩

lemma zipWith_getLast? {α β γ : Type*} (f : α → β → γ) :
    ∀ (as : List α) (bs : List β), as.length = bs.length →
      (List.zipWith f as bs).getLast? =
        Option.map₂ f as.getLast? bs.getLast? := by
  intro as
  induction as with
  | nil =>
    intro bs h
    cases bs with
    | nil => rfl
    | cons y ys => cases h
  | cons x xs ih =>
    intro bs h
    cases bs with
    | nil => cases h
    | cons y ys =>
      cases xs with
      | nil =>
        cases ys with
        | nil => rfl
        | cons z zs => cases h
      | cons x' xs' =>
        cases ys with
        | nil => cases h
        | cons y' ys' =>
          have hlen : (x' :: xs').length = (y' :: ys').length := by
            simpa using h
          calc (List.zipWith f (x :: x' :: xs') (y :: y' :: ys')).getLast?
              = (List.zipWith f (x' :: xs') (y' :: ys')).getLast? := by
                simp [List.zipWith, List.getLast?_cons_cons]
            _ = Option.map₂ f (x' :: xs').getLast? (y' :: ys').getLast? :=
                ih _ hlen
            _ = Option.map₂ f (x :: x' :: xs').getLast? (y :: y' :: ys').getLast? := by
                rw [List.getLast?_cons_cons, List.getLast?_cons_cons]

lemma getLast?_of_ne_nil {α : Type*} {l : List α} (h : l ≠ []) (d : α) :
    l.getLast? = some (l.getLastD d) := by
  cases hx : l.getLast? with
  | none => exact absurd (List.getLast?_eq_none_iff.1 hx) h
  | some z => rw [List.getLastD_eq_getLast?, hx]; rfl

lemma rsiOfRs_divOp_range {x y : Option ℚ} (hx : NNo x) (hy : NNo y) :
    rsiOfRs (divOp x y) = PFloat.nan ∨
      ∃ q : ℚ, rsiOfRs (divOp x y) = PFloat.val q ∧ 0 ≤ q ∧ q ≤ 100 := by
  cases x with
  | none => cases y with
    | none => exact Or.inl rfl
    | some b => exact Or.inl rfl
  | some a =>
    cases y with
    | none => exact Or.inl rfl
    | some b =>
      by_cases hb : b = 0
      · by_cases ha : a = 0
        · left; simp [divOp, hb, ha, rsiOfRs]
        · have ha' : 0 < a := lt_of_le_of_ne (hx a rfl) (Ne.symm ha)
          right
          refine ⟨100, ?_, by norm_num⟩
          simp [divOp, hb, ha, ha', rsiOfRs]
      · have hb' : 0 < b := lt_of_le_of_ne (hy b rfl) (Ne.symm hb)
        have hq : 0 ≤ a / b := div_nonneg (hx a rfl) (le_of_lt hb')
        have h1q : (0 : ℚ) < 1 + a / b := by linarith
        right
        refine ⟨100 - 100 / (1 + a / b), ?_, ?_, ?_⟩
        · simp [divOp, hb, rsiOfRs, ne_of_gt h1q]
        · have : 100 / (1 + a / b) ≤ 100 := div_le_self (by norm_num) (by linarith)
          linarith
        · have : 0 < 100 / (1 + a / b) := div_pos (by norm_num) h1q
          linarith

lemma NNo_of_mem_gain {dl : List (Option ℚ)} {o : Option ℚ}
    (ho : o ∈ dl.map (Option.map fun d => max d 0)) : NNo o := by
  obtain ⟨d, _, rfl⟩ := List.mem_map.1 ho
  cases d with
  | none => exact NNo_none
  | some v => exact NNo_some (le_max_right v 0)

lemma NNo_of_mem_loss {dl : List (Option ℚ)} {o : Option ℚ}
    (ho : o ∈ dl.map (Option.map fun d => max (-d) 0)) : NNo o := by
  obtain ⟨d, _, rfl⟩ := List.mem_map.1 ho
  cases d with
  | none => exact NNo_none
  | some v => exact NNo_some (le_max_right (-v) 0)

lemma calculate_rsi_getLast (data : List Bar) (h : data ≠ []) (p : ℕ) :
    (calculate_rsi data p).getLast? = some (rsiOfRs (divOp
      (((diff (data.map Bar.Close)).map (Option.map fun d => max d 0)).foldl
        (ewmStep (2 / (p + 1))) none)
      (((diff (data.map Bar.Close)).map (Option.map fun d => max (-d) 0)).foldl
        (ewmStep (2 / (p + 1))) none))) := by
  have hdl : diff (data.map Bar.Close) ≠ [] := by
    cases data with
    | nil => exact absurd rfl h
    | cons b bs => simp [diff]
  have hdlpos : 0 < (diff (data.map Bar.Close)).length :=
    List.length_pos.2 hdl
  unfold calculate_rsi
  rw [if_neg h]
  simp only []
  rw [List.getLast?_map,
    zipWith_getLast? divOp _ _ (by simp [ewm, ewmGo_length]),
    getLast?_of_ne_nil (List.ne_nil_of_length_pos (by
      simp only [ewm, ewmGo_length, List.length_map]; exact hdlpos)) none,
    getLast?_of_ne_nil (List.ne_nil_of_length_pos (by
      simp only [ewm, ewmGo_length, List.length_map]; exact hdlpos)) none]
  rw [ewm, ewmGo_getLastD, ewm, ewmGo_getLastD]
  rfl

/-- C3: every defined value of the per-bar RSI sequence computed by
`calculate_rsi` lies within [0, 100] (every entry is either `NaN` or a
finite value in range), and the latest RSI value is exactly 100
whenever every close-to-close delta is non-negative and the series is
non-degenerate (at least one delta is positive), i.e. the average loss
is 0 while the average gain is positive. -/
theorem rsi_range_and_pure_gain_100 (data : List Bar) :
    (∀ v ∈ calculate_rsi data, v = PFloat.nan ∨
      ∃ q : ℚ, v = PFloat.val q ∧ 0 ≤ q ∧ q ≤ 100) ∧
    ((∀ d ∈ diffs (data.map Bar.Close), 0 ≤ d) →
      (∃ d ∈ diffs (data.map Bar.Close), 0 < d) →
      (calculate_rsi data).getLast? = some (PFloat.val 100)) := by
  constructor
  · intro v hv
    by_cases hd : data = []
    · subst hd; simp [calculate_rsi] at hv
    · have ha0 : (0 : ℚ) ≤ 2 / ((14 : ℕ) + 1) := by norm_num
      have ha1 : (2 : ℚ) / ((14 : ℕ) + 1) ≤ 1 := by norm_num
      unfold calculate_rsi at hv
      rw [if_neg hd] at hv
      simp only [] at hv
      obtain ⟨w, hw, rfl⟩ := List.mem_map.1 hv
      obtain ⟨x, hx, y, hy, rfl⟩ := exists_of_mem_zipWith hw
      have hxNN : NNo x := ewmGo_NN ha0 ha1 _ none NNo_none
        (fun o ho => NNo_of_mem_gain ho) x hx
      have hyNN : NNo y := ewmGo_NN ha0 ha1 _ none NNo_none
        (fun o ho => NNo_of_mem_loss ho) y hy
      exact rsiOfRs_divOp_range hxNN hyNN
  · intro hall hex
    have hd : data ≠ [] := by
      intro h
      subst h
      simp [diffs] at hex
    have h0 : (0 : ℚ) < 2 / ((14 : ℕ) + 1) := by norm_num
    have h1 : (2 : ℚ) / ((14 : ℕ) + 1) < 1 := by norm_num
    rw [calculate_rsi_getLast data hd 14]
    cases data with
    | nil => exact absurd rfl hd
    | cons b bs =>
      have hdiff : diff ((b :: bs).map Bar.Close) =
          none :: (diffs ((b :: bs).map Bar.Close)).map some := rfl
      obtain ⟨d0, hd0mem, hd0pos⟩ := hex
      obtain ⟨g, hg, hgpos⟩ :=
        foldl_ewm_pos_of_mem h0 h1
          ((diffs ((b :: bs).map Bar.Close)).map (fun d => some (max d 0)))
          none NNo_none
          (by
            intro o ho
            obtain ⟨d, _, rfl⟩ := List.mem_map.1 ho
            exact NNo_some (le_max_right d 0))
          ⟨some (max d0 0), List.mem_map.2 ⟨d0, hd0mem, rfl⟩, max d0 0,
            rfl, by rw [max_eq_left (le_of_lt hd0pos)]; exact hd0pos⟩
      have hFG : ((diff ((b :: bs).map Bar.Close)).map
          (Option.map fun d => max d 0)).foldl
          (ewmStep (2 / ((14 : ℕ) + 1))) none = some g := by
        rw [hdiff]
        simp only [List.map_cons, List.map_map, List.foldl_cons]
        exact hg
      have hFL : ((diff ((b :: bs).map Bar.Close)).map
          (Option.map fun d => max (-d) 0)).foldl
          (ewmStep (2 / ((14 : ℕ) + 1))) none = some 0 := by
        rw [hdiff]
        simp only [List.map_cons, List.map_map, List.foldl_cons]
        refine foldl_ewm_zero _ _ ?_ (Or.inl rfl) ?_
        · intro o ho
          obtain ⟨d, hdmem, rfl⟩ := List.mem_map.1 ho
          have : max (-d) 0 = 0 := max_eq_right (by
            have := hall d hdmem; linarith)
          simp [Function.comp, this]
        · have : diffs ((b :: bs).map Bar.Close) ≠ [] := by
            intro h; rw [h] at hd0mem; cases hd0mem
          exact fun h => this (by simpa using h)
      rw [hFG, hFL]
      have hgne : ¬g = 0 := ne_of_gt hgpos
      simp [divOp, hgne, hgpos, rsiOfRs]

/-- Witness for C3 at the two-bar series with closes 1 then 2. -/
theorem rsi_range_and_pure_gain_100_witness :
    (calculate_rsi [⟨1, 1⟩, ⟨1, 2⟩]).getLast? = some (PFloat.val 100) :=
  (rsi_range_and_pure_gain_100 [⟨1, 1⟩, ⟨1, 2⟩]).2
    (by intro d hd; simp [diffs] at hd; rw [hd]; norm_num)
    ⟨1, by simp [diffs]; norm_num, by norm_num⟩

/-- C1 (amended): for at least 5 bars the momentum equals
`(latest close − close 4 bars earlier) / 5` — `iloc[-5]` is the 5th
value from the end (reverse index 4), not the spec's `close[last−5]` —
and for fewer than 5 bars it is 0. -/
theorem momentum_amended_window (closes : List ℚ) :
    (5 ≤ closes.length →
      momentum closes =
        (closes.reverse.getD 0 0 - closes.reverse.getD 4 0) / 5) ∧
    (closes.length < 5 → momentum closes = 0) := by
  constructor
  · intro h5
    unfold momentum
    rw [if_pos h5]
    have h1 : closes.reverse.getD 0 0 = closes.getD (closes.length - 1) 0 := by
      rw [List.getD_eq_getElem?_getD, List.getD_eq_getElem?_getD,
        List.getElem?_reverse (by omega), Nat.sub_zero]
    have h2 : closes.reverse.getD 4 0 = closes.getD (closes.length - 5) 0 := by
      rw [List.getD_eq_getElem?_getD, List.getD_eq_getElem?_getD,
        List.getElem?_reverse (by omega)]
      have h45 : closes.length - 1 - 4 = closes.length - 5 := by omega
      rw [h45]
    rw [h1, h2]
  · intro hlt
    unfold momentum
    rw [if_neg (by omega)]

/-- C1 counterexample: on the 6-bar close series 10..15 the code
computes momentum (15 − 11)/5 = 0.8, not the claimed
(15 − 10)/5 = 1. -/
theorem momentum_claimed_formula_cx :
    momentum [10, 11, 12, 13, 14, 15] = 4 / 5 ∧
      ((15 : ℚ) - 10) / 5 = 1 ∧ (4 : ℚ) / 5 ≠ 1 :=
  ⟨by norm_num [momentum], by norm_num, by norm_num⟩

/-- Witness for C1 at the 6-bar series. -/
theorem momentum_amended_window_witness :
    momentum [10, 11, 12, 13, 14, 15] =
      (([10, 11, 12, 13, 14, 15] : List ℚ).reverse.getD 0 0 -
        ([10, 11, 12, 13, 14, 15] : List ℚ).reverse.getD 4 0) / 5 :=
  (momentum_amended_window [10, 11, 12, 13, 14, 15]).1 (by norm_num)

/-- C7: the analyst classification is total on finite RSI values with
thresholds RSI < 50 → Buy, 50 ≤ RSI < 70 → Hold, RSI ≥ 70 → Sell; in
particular RSI = 50 gives Hold and RSI = 70 gives Sell. -/
theorem analyst_thresholds (q : ℚ) :
    ((q < 50 → analystOf (.val q) = "Buy") ∧
      (50 ≤ q → q < 70 → analystOf (.val q) = "Hold") ∧
      (70 ≤ q → analystOf (.val q) = "Sell")) ∧
    analystOf (.val 50) = "Hold" ∧ analystOf (.val 70) = "Sell" := by
  refine ⟨⟨?_, ?_, ?_⟩, ?_, ?_⟩
  · intro h; simp [analystOf, PFloat.lt, h]
  · intro h1 h2; simp [analystOf, PFloat.lt, not_lt.2 h1, h2]
  · intro h
    simp [analystOf, PFloat.lt, not_lt.2 h,
      not_lt.2 (by linarith : (50 : ℚ) ≤ q)]
  · norm_num [analystOf, PFloat.lt]
  · norm_num [analystOf, PFloat.lt]

/-- Witness for C7 at RSI = 60. -/
theorem analyst_thresholds_witness : analystOf (.val 60) = "Hold" :=
  (analyst_thresholds 60).1.2.1 (by norm_num) (by norm_num)

/-- C4 (amended): the default-0 branch fires only when the whole RSI
series is empty (empty input), in which case the label is Buy; a
symbol whose RSI series is non-empty but ends in an undefined (NaN)
value — e.g. any single-bar series — keeps NaN, which both float
comparisons reject, so it is classified Sell, not Buy; every value
still receives one of the three labels. -/
theorem rsi_default_and_nan_label :
    (rsiVal [] = PFloat.val 0 ∧ analystOf (rsiVal []) = "Buy") ∧
    (∀ b : Bar, rsiVal [b] = PFloat.nan ∧ analystOf (rsiVal [b]) = "Sell") ∧
    (∀ v : PFloat, analystOf v = "Buy" ∨ analystOf v = "Hold" ∨
      analystOf v = "Sell") := by
  refine ⟨⟨rfl, ?_⟩, fun b => ⟨rfl, rfl⟩, fun v => ?_⟩
  · norm_num [rsiVal, calculate_rsi, analystOf, PFloat.lt]
  · unfold analystOf
    split
    · exact Or.inl rfl
    · split
      · exact Or.inr (Or.inl rfl)
      · exact Or.inr (Or.inr rfl)

/-- C4 counterexample: on the single-bar series (open 10, close 12) the
built record's analyst label is Sell, although its RSI is undefined
(NaN) and the claim says such a symbol is labelled Buy. -/
theorem rsi_nan_label_cx :
    (mkRecord [⟨10, 12⟩]).map (fun r => r.Analyst) = some "Sell" ∧
      (mkRecord [⟨10, 12⟩]).map (fun r => r.RSI) = some PFloat.nan ∧
      "Sell" ≠ "Buy" := by
  refine ⟨?_, ?_, by decide⟩
  · norm_num [mkRecord, momentum, rsiVal, analystOf, calculate_rsi, diff,
      diffs, ewm, ewmGo, ewmStep, divOp, rsiOfRs, PFloat.lt]
  · norm_num [mkRecord, momentum, rsiVal, analystOf, calculate_rsi, diff,
      diffs, ewm, ewmGo, ewmStep, divOp, rsiOfRs, PFloat.lt]

/-- C8: for a non-empty series with positive latest open, the record is
built, its day change is `(close[last] − open[last]) / open[last] × 100`,
its sign matches the sign of `close[last] − open[last]`, and it is 0
exactly when the latest close equals the latest open. -/
theorem day_change_formula_sign (data : List Bar) (b : Bar)
    (hlast : data.getLast? = some b) (hopen : 0 < b.Open) :
    ∃ r : StockRec, mkRecord data = some r ∧
      r.Change = ((b.Close - b.Open) / b.Open) * 100 ∧
      (0 < r.Change ↔ b.Open < b.Close) ∧
      (r.Change < 0 ↔ b.Close < b.Open) ∧
      (r.Change = 0 ↔ b.Close = b.Open) := by
  have hmk : mkRecord data = some
      { Price := b.Close
        Change := ((b.Close - b.Open) / b.Open) * 100
        Momentum := momentum (data.map Bar.Close)
        RSI := rsiVal data
        Analyst := analystOf (rsiVal data)
        Risk := if 5 < |((b.Close - b.Open) / b.Open) * 100| then "High"
          else "Medium"
        Data := data } := by
    unfold mkRecord
    rw [hlast]
  have hk : (0 : ℚ) < 100 / b.Open := div_pos (by norm_num) hopen
  have key : ((b.Close - b.Open) / b.Open) * 100 =
      (b.Close - b.Open) * (100 / b.Open) := by ring
  refine ⟨_, hmk, rfl, ?_, ?_, ?_⟩
  · simp only [key]
    constructor
    · intro h
      rcases mul_pos_iff.1 h with ⟨h1, _⟩ | ⟨_, h2⟩
      · linarith
      · linarith
    · intro h
      exact mul_pos (sub_pos.2 h) hk
  · simp only [key]
    constructor
    · intro h
      rcases mul_neg_iff.1 h with ⟨_, h2⟩ | ⟨h1, _⟩
      · linarith
      · linarith
    · intro h
      exact mul_neg_of_neg_of_pos (by linarith) hk
  · simp only [key, mul_eq_zero, ne_of_gt hk, or_false]
    exact sub_eq_zero

lemma length_filter_and_split {α : Type*} (p q : α → Prop)
    [DecidablePred p] [DecidablePred q] (l : List α) :
    (l.filter fun x => decide (p x ∧ q x)).length +
      (l.filter fun x => decide (p x ∧ ¬ q x)).length =
      (l.filter fun x => decide (p x)).length := by
  induction l with
  | nil => rfl
  | cons x xs ih =>
    simp only [List.filter_cons]
    by_cases hp : p x
    · by_cases hq : q x
      · rw [if_pos (by simp [hp, hq]), if_neg (by simp [hp, hq]),
          if_pos (by simp [hp])]
        simp only [List.length_cons]
        omega
      · rw [if_neg (by simp [hp, hq]), if_pos (by simp [hp, hq]),
          if_pos (by simp [hp])]
        simp only [List.length_cons]
        omega
    · rw [if_neg (by simp [hp]), if_neg (by simp [hp]), if_neg (by simp [hp])]
      exact ih

lemma backfill_cons_pos {tp : List (ℕ × StockRec)} {s : ℕ × StockRec}
    {rest : List (ℕ × StockRec)} (hs : 0 < s.2.Change) {b : Bool}
    {l : List (ℕ × StockRec)} (hc : pyContains s tp = some b)
    (hb : backfill tp rest = some l) :
    backfill tp (s :: rest) = some (if b then l else s :: l) := by
  simp only [backfill]
  rw [if_pos hs, hc, hb]

lemma backfill_cons_errc {tp : List (ℕ × StockRec)} {s : ℕ × StockRec}
    {rest : List (ℕ × StockRec)} (hs : 0 < s.2.Change)
    (hc : pyContains s tp = none) : backfill tp (s :: rest) = none := by
  simp only [backfill]
  rw [if_pos hs, hc]

lemma backfill_cons_errr {tp : List (ℕ × StockRec)} {s : ℕ × StockRec}
    {rest : List (ℕ × StockRec)} (hs : 0 < s.2.Change) {b : Bool}
    (hc : pyContains s tp = some b) (hb : backfill tp rest = none) :
    backfill tp (s :: rest) = none := by
  simp only [backfill]
  rw [if_pos hs, hc, hb]

lemma backfill_cons_neg {tp : List (ℕ × StockRec)} {s : ℕ × StockRec}
    {rest : List (ℕ × StockRec)} (hs : ¬0 < s.2.Change) :
    backfill tp (s :: rest) = backfill tp rest := by
  simp only [backfill]
  rw [if_neg hs]

lemma backfill_mem_pos (tp : List (ℕ × StockRec)) :
    ∀ (xs L : List (ℕ × StockRec)), backfill tp xs = some L →
      ∀ t ∈ L, 0 < t.2.Change := by
  intro xs
  induction xs with
  | nil =>
    intro L h t ht
    obtain rfl := Option.some.inj h
    cases ht
  | cons s rest ih =>
    intro L h t ht
    by_cases hs : 0 < s.2.Change
    · cases hc : pyContains s tp with
      | none => rw [backfill_cons_errc hs hc] at h; cases h
      | some b =>
        cases hb : backfill tp rest with
        | none => rw [backfill_cons_errr hs hc hb] at h; cases h
        | some l' =>
          rw [backfill_cons_pos hs hc hb] at h
          obtain rfl := Option.some.inj h
          cases b with
          | true => exact ih l' hb t (by simpa using ht)
          | false =>
            rcases List.mem_cons.1 (by simpa using ht) with rfl | htl
            · exact hs
            · exact ih l' hb t htl
    · rw [backfill_cons_neg hs] at h
      exact ih L h t ht

lemma backfill_all_nonpos (tp : List (ℕ × StockRec)) :
    ∀ xs : List (ℕ × StockRec), (∀ s ∈ xs, ¬0 < s.2.Change) →
      backfill tp xs = some [] := by
  intro xs
  induction xs with
  | nil => intro _; rfl
  | cons s rest ih =>
    intro hall
    rw [backfill_cons_neg (hall s (by simp))]
    exact ih (fun t ht => hall t (by simp [ht]))

lemma backfill_countP_le (tp : List (ℕ × StockRec)) :
    ∀ (xs L : List (ℕ × StockRec)), backfill tp xs = some L →
      ∀ p : (ℕ × StockRec) → Bool,
        (∀ s ∈ xs, p s = true →
          0 < s.2.Change ∧ pyContains s tp ≠ some true) →
        xs.countP p ≤ L.length := by
  intro xs
  induction xs with
  | nil =>
    intro L h p _
    obtain rfl := Option.some.inj h
    simp
  | cons s rest ih =>
    intro L h p hp
    by_cases hs : 0 < s.2.Change
    · cases hc : pyContains s tp with
      | none => rw [backfill_cons_errc hs hc] at h; cases h
      | some b =>
        cases hb : backfill tp rest with
        | none => rw [backfill_cons_errr hs hc hb] at h; cases h
        | some l' =>
          rw [backfill_cons_pos hs hc hb] at h
          obtain rfl := Option.some.inj h
          have hrest := ih l' hb p (fun t ht hpt => hp t (by simp [ht]) hpt)
          cases b with
          | true =>
            have hps : p s = false := by
              cases hps : p s with
              | false => rfl
              | true => exact absurd hc (hp s (by simp) hps).2
            simp only [List.countP_cons, hps, if_false]
            simpa using hrest
          | false =>
            cases hps : p s with
            | false => simp [List.countP_cons, hps]; omega
            | true => simp [List.countP_cons, hps]; omega
    · rw [backfill_cons_neg hs] at h
      have hrest := ih L h p (fun t ht hpt => hp t (by simp [ht]) hpt)
      have hps : p s = false := by
        cases hps : p s with
        | false => rfl
        | true => exact absurd (hp s (by simp) hps).1 hs
      simp only [List.countP_cons, hps, if_false]
      simpa using hrest

lemma pyContains_true {s : ℕ × StockRec} :
    ∀ {tp : List (ℕ × StockRec)}, pyContains s tp = some true →
      ∃ e ∈ tp, s.1 = e.1 := by
  intro tp
  induction tp with
  | nil => intro h; simp [pyContains] at h
  | cons e rest ih =>
    intro h
    by_cases hid : s.1 = e.1
    · exact ⟨e, by simp, hid⟩
    · by_cases hsc : scalarEq s.2 e.2
      · have hnone : pyContains s (e :: rest) = none := by
          simp only [pyContains, pyRecEq]
          rw [if_neg hid, if_pos hsc]
        rw [hnone] at h
        cases h
      · have hstep : pyContains s (e :: rest) = pyContains s rest := by
          simp only [pyContains, pyRecEq]
          rw [if_neg hid, if_neg hsc]
        rw [hstep] at h
        obtain ⟨e', he', h'⟩ := ih h
        exact ⟨e', by simp [he'], h'⟩

/-- C2: whenever the top-3 selection returns a list, none of its
records has non-positive day change; and when every record has
non-positive day change it successfully returns the empty list (the
raising membership test is never evaluated on that path). -/
theorem top3_positive_change_only (l : List StockRec) :
    (∀ res : List StockRec, get_top_3_picks l = some res →
      ∀ r ∈ res, 0 < r.Change) ∧
    ((∀ r ∈ l, r.Change ≤ 0) → get_top_3_picks l = some []) := by
  have hperm : (List.insertionSort keyGeT l.enum).Perm l.enum :=
    List.perm_insertionSort keyGeT l.enum
  have hmem_sd : ∀ t ∈ List.insertionSort keyGeT l.enum, t.2 ∈ l := by
    intro t htmem
    have h1 : t ∈ l.enum := hperm.mem_iff.1 htmem
    have h2 : t.2 ∈ l.enum.map Prod.snd := List.mem_map_of_mem Prod.snd h1
    rwa [List.enum_map_snd] at h2
  constructor
  · intro res h r hr
    unfold get_top_3_picks at h
    simp only [] at h
    set sd := List.insertionSort keyGeT l.enum with hsd
    set tp := (sd.filter fun s =>
      decide (0 < s.2.Change ∧ (5 : ℚ) / 1000 < s.2.Momentum)).take 3 with htp
    by_cases hc : tp.length < 3
    · rw [if_pos hc] at h
      cases hb : backfill tp sd with
      | none => rw [hb] at h; cases h
      | some L =>
        rw [hb] at h
        obtain rfl := Option.some.inj h
        obtain ⟨t, ht, rfl⟩ := List.mem_map.1 hr
        rcases List.mem_append.1 (List.mem_of_mem_take ht) with h1 | h1
        · rw [htp] at h1
          exact (of_decide_eq_true
            (List.mem_filter.1 (List.mem_of_mem_take h1)).2).1
        · exact backfill_mem_pos tp sd L hb t (List.mem_of_mem_take h1)
    · rw [if_neg hc] at h
      obtain rfl := Option.some.inj h
      obtain ⟨t, ht, rfl⟩ := List.mem_map.1 hr
      rw [htp] at ht
      exact (of_decide_eq_true
        (List.mem_filter.1
          (List.mem_of_mem_take (List.mem_of_mem_take ht))).2).1
  · intro hall
    unfold get_top_3_picks
    simp only []
    have hQnil : ((List.insertionSort keyGeT l.enum).filter fun s =>
        decide (0 < s.2.Change ∧ (5 : ℚ) / 1000 < s.2.Momentum)) = [] := by
      rw [List.filter_eq_nil_iff]
      intro t htmem
      have h0 := hall t.2 (hmem_sd t htmem)
      simp only [decide_eq_true_eq, not_and]
      intro hpos
      linarith
    rw [hQnil]
    simp only [List.take_nil, List.length_nil]
    rw [if_pos (by norm_num)]
    rw [backfill_all_nonpos [] (List.insertionSort keyGeT l.enum)
      (fun t ht => not_lt.2 (hall t.2 (hmem_sd t ht)))]
    simp

/-- Witness for C2 on a one-record universe with negative day change. -/
theorem top3_positive_change_only_witness :
    get_top_3_picks [⟨1, -2, 1, PFloat.val 0, "Buy", "Medium", []⟩] =
      some [] :=
  (top3_positive_change_only _).2 (by
    intro r hr
    simp only [List.mem_singleton] at hr
    subst hr
    norm_num)

/-- C9 (amended): the backfill membership test does compare records by
value, but on two distinct records agreeing on all six scalar entries
it reaches their `Data` DataFrames and raises `ValueError` (returning
no list at all), and any record value-equal to a primary pick but not
identical to one is such a record; so the function never returns a
list of fewer than 3 entries when at least 3 records with positive day
change exist — whenever it returns at all, the list has exactly 3. -/
theorem top3_some_length_three (l : List StockRec) (res : List StockRec)
    (h : get_top_3_picks l = some res)
    (h3 : 3 ≤ (l.filter fun s => decide (0 < s.Change)).length) :
    res.length = 3 := by
  have hperm : (List.insertionSort keyGeT l.enum).Perm l.enum :=
    List.perm_insertionSort keyGeT l.enum
  unfold get_top_3_picks at h
  simp only [] at h
  set sd := List.insertionSort keyGeT l.enum with hsd
  set Q := sd.filter fun s =>
    decide (0 < s.2.Change ∧ (5 : ℚ) / 1000 < s.2.Momentum) with hQ
  have hP : 3 ≤ (sd.filter fun s => decide (0 < s.2.Change)).length := by
    rw [← List.countP_eq_length_filter] at h3 ⊢
    calc List.countP (fun s => decide (0 < s.2.Change)) sd
        = List.countP (fun s => decide (0 < s.2.Change)) l.enum :=
          hperm.countP_eq _
      _ = List.countP (fun a : StockRec => decide (0 < a.Change))
            (l.enum.map Prod.snd) := by rw [List.countP_map]; rfl
      _ = List.countP (fun a : StockRec => decide (0 < a.Change)) l := by
          rw [List.enum_map_snd]
      _ ≥ 3 := h3
  rcases lt_or_le Q.length 3 with hQlen | hQlen
  · have htake : Q.take 3 = Q := List.take_of_length_le (by omega)
    rw [htake, if_pos hQlen] at h
    cases hb : backfill Q sd with
    | none => rw [hb] at h; cases h
    | some L =>
      rw [hb] at h
      obtain rfl := Option.some.inj h
      have hTagNodup : (sd.map Prod.fst).Nodup := by
        have hpm : (sd.map Prod.fst).Perm (l.enum.map Prod.fst) :=
          hperm.map Prod.fst
        rw [hpm.nodup_iff, List.enum_map_fst]
        exact List.nodup_range _
      have hLlen : List.countP (fun s =>
          decide (0 < s.2.Change ∧ ¬((5 : ℚ) / 1000 < s.2.Momentum))) sd ≤
            L.length := by
        apply backfill_countP_le Q sd L hb
        intro t htmem hpt
        have hpt' := of_decide_eq_true hpt
        refine ⟨hpt'.1, fun hcont => ?_⟩
        obtain ⟨e, heQ, htag⟩ := pyContains_true hcont
        have heSd : e ∈ sd := (List.mem_filter.1 (hQ ▸ heQ)).1
        have hte : t = e :=
          List.inj_on_of_nodup_map hTagNodup htmem heSd htag
        have hm := (of_decide_eq_true (List.mem_filter.1 (hQ ▸ heQ)).2).2
        rw [hte] at hpt'
        exact hpt'.2 hm
      rw [List.countP_eq_length_filter] at hLlen
      have hsplit := length_filter_and_split
        (fun s : ℕ × StockRec => 0 < s.2.Change)
        (fun s : ℕ × StockRec => (5 : ℚ) / 1000 < s.2.Momentum) sd
      simp only [] at hsplit
      rw [← hQ] at hsplit
      rw [List.length_map, List.length_take, List.length_append,
        List.length_take]
      omega
  · rw [if_neg (by rw [List.length_take]; omega)] at h
    obtain rfl := Option.some.inj h
    rw [List.length_map, List.length_take, List.length_take]
    omega

/-- C9 counterexample: with two value-equal records (both primary-tier,
as for two symbols with identical analytics) plus a third
positive-change record, the backfill membership test compares the
second duplicate against the first, reaches the `Data` comparison and
raises `ValueError` — the call produces no list at all (neither a
3-element one nor the claimed shorter-than-3 one), although 3 records
with positive day change exist. -/
theorem top3_duplicates_cx :
    get_top_3_picks
        [⟨1, 10, 1, PFloat.val 0, "Buy", "High", []⟩,
          ⟨1, 10, 1, PFloat.val 0, "Buy", "High", []⟩,
          ⟨1, 1, 0, PFloat.val 0, "Buy", "Medium", []⟩] = none ∧
      3 ≤ (([⟨1, 10, 1, PFloat.val 0, "Buy", "High", []⟩,
          ⟨1, 10, 1, PFloat.val 0, "Buy", "High", []⟩,
          ⟨1, 1, 0, PFloat.val 0, "Buy", "Medium", []⟩] :
            List StockRec).filter fun s => decide (0 < s.Change)).length := by
  constructor
  · norm_num [get_top_3_picks, List.insertionSort, List.orderedInsert,
      keyGeT, keyGe, List.filter, List.enum, List.enumFrom, backfill,
      pyContains, pyRecEq, scalarEq, pyEqF]
  · norm_num [List.filter]

/-- Witness for C9 on a duplicate-free universe of three primary-tier
records, where the call succeeds. -/
theorem top3_some_length_three_witness :
    ([⟨1, 30, 1, PFloat.val 0, "Buy", "High", []⟩,
      ⟨1, 20, 1, PFloat.val 0, "Buy", "High", []⟩,
      ⟨1, 10, 1, PFloat.val 0, "Buy", "High", []⟩] :
        List StockRec).length = 3 :=
  top3_some_length_three
    [⟨1, 30, 1, PFloat.val 0, "Buy", "High", []⟩,
      ⟨1, 20, 1, PFloat.val 0, "Buy", "High", []⟩,
      ⟨1, 10, 1, PFloat.val 0, "Buy", "High", []⟩]
    [⟨1, 30, 1, PFloat.val 0, "Buy", "High", []⟩,
      ⟨1, 20, 1, PFloat.val 0, "Buy", "High", []⟩,
      ⟨1, 10, 1, PFloat.val 0, "Buy", "High", []⟩]
    (by norm_num [get_top_3_picks, List.insertionSort, List.orderedInsert,
      keyGeT, keyGe, List.filter, List.enum, List.enumFrom])
    (by norm_num [List.filter])

/-- Witness for C8 at a single bar with open 10, close 12. -/
theorem day_change_formula_sign_witness :
    ∃ r : StockRec, mkRecord [⟨10, 12⟩] = some r ∧
      r.Change = (((12 : ℚ) - 10) / 10) * 100 ∧
      (0 < r.Change ↔ (10 : ℚ) < 12) ∧
      (r.Change < 0 ↔ (12 : ℚ) < 10) ∧
      (r.Change = 0 ↔ (12 : ℚ) = 10) :=
  day_change_formula_sign [⟨10, 12⟩] ⟨10, 12⟩ rfl (by norm_num)

lemma fetch_data_ne_nil {raw : FetchRaw} {sym per : String} {data : List Bar}
    (h : fetch_data raw sym per = some data) : data ≠ [] := by
  unfold fetch_data at h
  split at h
  · exact absurd h (by simp)
  · split at h
    · exact absurd h (by simp)
    · obtain rfl := Option.some.inj h
      intro hn
      subst hn
      simp_all

lemma mkRecord_isSome {data : List Bar} (h : data ≠ []) :
    ∃ r, mkRecord data = some r := by
  cases hl : data.getLast? with
  | none => exact absurd (List.getLast?_eq_none_iff.1 hl) h
  | some b =>
    refine ⟨{ Price := b.Close
              Change := ((b.Close - b.Open) / b.Open) * 100
              Momentum := momentum (data.map Bar.Close)
              RSI := rsiVal data
              Analyst := analystOf (rsiVal data)
              Risk := if 5 < |((b.Close - b.Open) / b.Open) * 100| then "High"
                else "Medium"
              Data := data }, ?_⟩
    unfold mkRecord
    rw [hl]

lemma dlookup_dinsert (k t : String) (v : StockRec)
    (m : List (String × StockRec)) :
    dlookup t (dinsert k v m) = if k = t then some v else dlookup t m := by
  induction m with
  | nil => rfl
  | cons hd rest ih =>
    obtain ⟨k', v'⟩ := hd
    by_cases hk : k' = k
    · subst hk
      simp only [dinsert, if_pos rfl]
      by_cases ht : k' = t
      · simp [dlookup, ht]
      · simp [dlookup, ht]
    · simp only [dinsert, if_neg hk]
      by_cases ht : k' = t
      · have hkt : ¬k = t := fun h => hk (ht.trans h.symm)
        simp [dlookup, ht, hkt]
      · simp [dlookup, ht, ih]

lemma get_stock_data_go_isSome (raw : FetchRaw) (per : String) :
    ∀ (syms : List String) (acc : List (String × StockRec)),
      ∃ m, get_stock_data_go raw per syms acc = some m := by
  intro syms
  induction syms with
  | nil => intro acc; exact ⟨acc, rfl⟩
  | cons s rest ih =>
    intro acc
    cases hf : fetch_data raw s per with
    | none => simpa [get_stock_data_go, hf] using ih acc
    | some data =>
      obtain ⟨r, hr⟩ := mkRecord_isSome (fetch_data_ne_nil hf)
      simpa [get_stock_data_go, hf, hr] using ih (dinsert s r acc)

lemma get_stock_data_go_lookup (raw : FetchRaw) (per : String) :
    ∀ (syms : List String) (acc m : List (String × StockRec)),
      get_stock_data_go raw per syms acc = some m → ∀ sym : String,
        ((dlookup sym m).isSome = true ↔
          ((sym ∈ syms ∧ (fetch_data raw sym per).isSome = true) ∨
            (dlookup sym acc).isSome = true)) := by
  intro syms
  induction syms with
  | nil =>
    intro acc m hm sym
    simp only [get_stock_data_go] at hm
    obtain rfl := Option.some.inj hm
    simp
  | cons s rest ih =>
    intro acc m hm sym
    cases hf : fetch_data raw s per with
    | none =>
      rw [show get_stock_data_go raw per (s :: rest) acc
          = get_stock_data_go raw per rest acc from by
        simp [get_stock_data_go, hf]] at hm
      rw [ih acc m hm sym]
      by_cases hs : sym = s
      · subst hs
        simp [hf, List.mem_cons]
      · simp [List.mem_cons, hs]
    | some data =>
      obtain ⟨r, hr⟩ := mkRecord_isSome (fetch_data_ne_nil hf)
      rw [show get_stock_data_go raw per (s :: rest) acc
          = get_stock_data_go raw per rest (dinsert s r acc) from by
        simp [get_stock_data_go, hf, hr]] at hm
      rw [ih _ m hm sym, dlookup_dinsert]
      by_cases hs : s = sym
      · subst hs
        simp [hf, List.mem_cons]
      · have hs' : ¬sym = s := fun h => hs h.symm
        simp [List.mem_cons, hs, hs']

/-- The accumulator after one loop iteration for symbol `u`. -/
def stepAcc (raw : FetchRaw) (per u : String)
    (acc : List (String × StockRec)) : List (String × StockRec) :=
  match fetch_data raw u per with
  | none => acc
  | some data =>
      match mkRecord data with
      | none => acc
      | some r => dinsert u r acc

lemma get_stock_data_go_cons (raw : FetchRaw) (per u : String)
    (rest : List String) (acc : List (String × StockRec)) :
    get_stock_data_go raw per (u :: rest) acc =
      get_stock_data_go raw per rest (stepAcc raw per u acc) := by
  cases hf : fetch_data raw u per with
  | none => simp [get_stock_data_go, stepAcc, hf]
  | some data =>
    obtain ⟨r, hr⟩ := mkRecord_isSome (fetch_data_ne_nil hf)
    simp [get_stock_data_go, stepAcc, hf, hr]

lemma stepAcc_none {raw : FetchRaw} {per u : String}
    {acc : List (String × StockRec)} (hf : fetch_data raw u per = none) :
    stepAcc raw per u acc = acc := by
  unfold stepAcc
  rw [hf]

lemma stepAcc_some {raw : FetchRaw} {per u : String}
    {acc : List (String × StockRec)} {data : List Bar} {r : StockRec}
    (hf : fetch_data raw u per = some data) (hr : mkRecord data = some r) :
    stepAcc raw per u acc = dinsert u r acc := by
  unfold stepAcc
  rw [hf]
  show (match mkRecord data with
    | none => acc
    | some r' => dinsert u r' acc) = dinsert u r acc
  rw [hr]

lemma stepAcc_lookup_ne {t u : String} (h : ¬u = t) (raw : FetchRaw)
    (per : String) (acc : List (String × StockRec)) :
    dlookup t (stepAcc raw per u acc) = dlookup t acc := by
  cases hf : fetch_data raw u per with
  | none => rw [stepAcc_none hf]
  | some data =>
    obtain ⟨r, hr⟩ := mkRecord_isSome (fetch_data_ne_nil hf)
    rw [stepAcc_some hf hr, dlookup_dinsert, if_neg h]

lemma stepAcc_lookup_congr {raw raw' : FetchRaw} {per u t : String}
    {acc acc' : List (String × StockRec)}
    (hraw : raw u per = raw' u per)
    (hacc : dlookup t acc = dlookup t acc') :
    dlookup t (stepAcc raw per u acc) = dlookup t (stepAcc raw' per u acc') := by
  have hfd : fetch_data raw u per = fetch_data raw' u per := by
    unfold fetch_data
    rw [hraw]
  cases hf : fetch_data raw' u per with
  | none => rw [stepAcc_none (hfd.trans hf), stepAcc_none hf]; exact hacc
  | some data =>
    obtain ⟨r, hr⟩ := mkRecord_isSome (fetch_data_ne_nil hf)
    rw [stepAcc_some (hfd.trans hf) hr, stepAcc_some hf hr,
      dlookup_dinsert, dlookup_dinsert]
    by_cases hu : u = t
    · rw [if_pos hu, if_pos hu]
    · rw [if_neg hu, if_neg hu]; exact hacc

lemma get_stock_data_go_agree (raw raw' : FetchRaw) (per s : String)
    (hagree : ∀ t : String, t ≠ s → raw t per = raw' t per) :
    ∀ (syms : List String) (acc acc' m m' : List (String × StockRec)),
      (∀ t : String, t ≠ s → dlookup t acc = dlookup t acc') →
      get_stock_data_go raw per syms acc = some m →
      get_stock_data_go raw' per syms acc' = some m' →
      ∀ t : String, t ≠ s → dlookup t m = dlookup t m' := by
  intro syms
  induction syms with
  | nil =>
    intro acc acc' m m' hacc hm hm' t ht
    simp only [get_stock_data_go] at hm hm'
    obtain rfl := Option.some.inj hm
    obtain rfl := Option.some.inj hm'
    exact hacc t ht
  | cons u rest ih =>
    intro acc acc' m m' hacc hm hm' t ht
    rw [get_stock_data_go_cons] at hm hm'
    refine ih _ _ m m' ?_ hm hm' t ht
    intro t' ht'
    by_cases hu : u = s
    · subst hu
      rw [stepAcc_lookup_ne (fun h => ht' h.symm) raw per acc,
        stepAcc_lookup_ne (fun h => ht' h.symm) raw' per acc']
      exact hacc t' ht'
    · exact stepAcc_lookup_congr (hagree u hu) (hacc t' ht')

/-- C5: the batch builder always returns a mapping (no error reaches
the caller); a symbol is present in it exactly when it was requested
and its fetch produced data; and changing the fetch behaviour of one
symbol never changes the record looked up for any other symbol. -/
theorem get_stock_data_omission_independence :
    (∀ (raw : FetchRaw) (per : String) (syms : List String),
      ∃ m, get_stock_data raw syms per = some m) ∧
    (∀ (raw : FetchRaw) (per : String) (syms : List String)
      (m : List (String × StockRec)),
      get_stock_data raw syms per = some m → ∀ sym : String,
        ((dlookup sym m).isSome = true ↔
          (sym ∈ syms ∧ (fetch_data raw sym per).isSome = true))) ∧
    (∀ (raw raw' : FetchRaw) (per s : String) (syms : List String)
      (m m' : List (String × StockRec)),
      (∀ t : String, t ≠ s → raw t per = raw' t per) →
      get_stock_data raw syms per = some m →
      get_stock_data raw' syms per = some m' →
      ∀ t : String, t ≠ s → dlookup t m = dlookup t m') := by
  refine ⟨?_, ?_, ?_⟩
  · intro raw per syms
    exact get_stock_data_go_isSome raw per syms []
  · intro raw per syms m hm sym
    have h := get_stock_data_go_lookup raw per syms [] m hm sym
    simpa [dlookup] using h
  · intro raw raw' per s syms m m' hagree hm hm' t ht
    exact get_stock_data_go_agree raw raw' per s hagree syms [] [] m m'
      (fun _ _ => rfl) hm hm' t ht

/-- Witness for C5: with a fetch oracle that always raises, the lone
requested symbol is absent from the (successfully returned) mapping. -/
theorem get_stock_data_omission_independence_witness :
    (dlookup "B" ([] : List (String × StockRec))).isSome = true ↔
      ("B" ∈ (["B"] : List String) ∧
        (fetch_data (fun _ _ => none) "B" "1mo").isSome = true) :=
  get_stock_data_omission_independence.2.1 (fun _ _ => none) "1mo" ["B"] []
    rfl "B"

/-- C10: `fetch_data` never returns an empty series (`None` signals
both an exception and an empty history), so every series the builder
processes has at least one bar and the latest-bar accesses are always
in range: the builder never returns the `none` that models a raised
`IndexError`. -/
theorem fetch_nonempty_and_builder_total :
    (∀ (raw : FetchRaw) (sym per : String) (data : List Bar),
      fetch_data raw sym per = some data → data ≠ []) ∧
    (∀ (raw : FetchRaw) (syms : List String) (per : String),
      (get_stock_data raw syms per).isSome = true) := by
  constructor
  · intro raw sym per data h
    exact fetch_data_ne_nil h
  · intro raw syms per
    obtain ⟨m, hm⟩ := get_stock_data_go_isSome raw per syms []
    simp [get_stock_data, hm]

/-- Witness for C10 on a one-bar fetch result. -/
theorem fetch_nonempty_and_builder_total_witness :
    ([(⟨1, 2⟩ : Bar)] : List Bar) ≠ [] :=
  fetch_nonempty_and_builder_total.1 (fun _ _ => some [⟨1, 2⟩]) "A" "1mo"
    [⟨1, 2⟩] rfl

/-- C6 (spec-modelled cache): a repeated call with the same key returns
the same mapping and leaves the fetch counter unchanged (zero
additional fetch invocations), and after invalidation the next call
with that key performs one fresh fetch per listed symbol. -/
theorem cache_memoization_spec (raw : FetchRaw) (st : CacheState)
    (key : List String × String) :
    (getOrCompute raw (getOrCompute raw st key).1 key).2 =
        (getOrCompute raw st key).2 ∧
      (getOrCompute raw (getOrCompute raw st key).1 key).1.fetchCount =
        (getOrCompute raw st key).1.fetchCount ∧
      (getOrCompute raw
          (invalidate (getOrCompute raw (getOrCompute raw st key).1 key).1)
          key).1.fetchCount =
        (getOrCompute raw (getOrCompute raw st key).1 key).1.fetchCount +
          key.1.length := by
  cases hc : cacheFind key st.entries with
  | some v => simp [getOrCompute, hc, invalidate, cacheFind]
  | none => simp [getOrCompute, hc, invalidate, cacheFind]
